import Mathlib

/-!
# Verification of the RS-Rating pipeline

A shallow embedding of the core of the RS-Rating repository
(`scripts/calculate_rs_from_db.py`, `scripts/merge_arcticdb.py`,
`scripts/build_ticker_price.py`) together with theorems checking the
natural-language specification against it.

Conventions used throughout:
* Python/numpy floats are modelled as rationals (`ℚ`); a float `NaN`
  ("undefined" score) is modelled as `none` in `Option ℚ`.
* Python's builtin `round` and numpy/pandas `.round()` round half to even;
  this is `roundHalfEven` below.
* `pandas.Series` of closes are modelled as `List ℚ` in chronological order.
-/

/-- Round half to even of a rational to an integer, the behaviour of Python's
builtin `round` and of numpy/pandas rounding. -/
def roundHalfEven (q : ℚ) : ℤ :=
  if q - (⌊q⌋ : ℚ) < 1/2 then ⌊q⌋
  else if 1/2 < q - (⌊q⌋ : ℚ) then ⌊q⌋ + 1
  else if ⌊q⌋ % 2 = 0 then ⌊q⌋ else ⌊q⌋ + 1

/-- Python's `round(x, 2)`: round half to even at two decimal places. -/
def round2 (q : ℚ) : ℚ := (roundHalfEven (q * 100) : ℚ) / 100

/-- `series.pct_change().dropna()` of pandas on a list of closes: the list of
day-over-day fractional changes `c_{i+1} / c_i - 1`. -/
def pctChanges (closes : List ℚ) : List ℚ :=
  List.zipWith (fun a b => b / a - 1) closes closes.tail

/-- `quarters_perf` of `scripts/calculate_rs_from_db.py` (lines 20-27):
cumulative return over the trailing `n * 63` trading days, clipped to the
available history; a single available price yields the `0.0` placeholder and
an empty series yields NaN. -/
def quarters_perf (closes : List ℚ) (n : ℕ) : Option ℚ :=
  let days := n * 63
  let sliceLen := min closes.length (days + 1)
  let available := closes.drop (closes.length - sliceLen)
  if available.length < 2 then
    if available.length = 1 then some 0 else none
  else
    let pc := pctChanges available
    if pc.isEmpty then none
    else some ((pc.foldl (fun acc x => acc * (x + 1)) 1) - 1)

/-- `strength` of `scripts/calculate_rs_from_db.py` (lines 30-38): weighted
combination of the four trailing-quarter performances with weights
0.4/0.2/0.2/0.2, renormalized over the defined performances. -/
def strength (closes : List ℚ) : Option ℚ :=
  let perfs := [quarters_perf closes 1, quarters_perf closes 2,
                quarters_perf closes 3, quarters_perf closes 4]
  let valid := perfs.filterMap id
  if valid.isEmpty then none
  else
    let weights := ([(4:ℚ)/10, 2/10, 2/10, 2/10]).take valid.length
    let total := weights.foldl (· + ·) 0
    let normed := if 0 < total then weights.map (· / total) else weights
    some ((normed.zip valid).foldl (fun acc wp => acc + wp.1 * wp.2) 0)

/-- `relative_strength` of `scripts/calculate_rs_from_db.py` (lines 41-48)
(identical in `scripts/calculate_rs.py` lines 36-43): composite RS ratio with
the 590 sanity cap. -/
def relative_strength (closes closes_ref : List ℚ) : Option ℚ :=
  match strength closes, strength closes_ref with
  | some rs_stock, some rs_ref =>
    let rs := (1 + rs_stock) / (1 + rs_ref) * 100
    if rs ≤ 590 then some (round2 rs) else none
  | _, _ => none

/-- `short_relative_strength` of `scripts/calculate_rs_from_db.py`
(lines 51-57): trailing-window return ratio; `closes.iloc[-days]` is the
element at position `length - days`. -/
def short_relative_strength (closes closes_ref : List ℚ) (days : ℕ) : Option ℚ :=
  if closes.length < days + 1 ∨ closes_ref.length < days + 1 then none
  else
    let stock_ret := closes.getD (closes.length - 1) 0 /
      closes.getD (closes.length - days) 0 - 1
    let ref_ret := closes_ref.getD (closes_ref.length - 1) 0 /
      closes_ref.getD (closes_ref.length - days) 0 - 1
    let rs := (1 + stock_ret) / (1 + ref_ret) * 100
    if rs ≤ 590 then some (round2 rs) else none

/-! ## Percentile ranker (claim C2)

`scripts/calculate_rs_from_db.py` lines 260-266: for each horizon column the
defined scores are ranked with
`valid_values.rank(pct=True, method='min') * 99` and truncated to integer;
rows with an undefined score keep an undefined percentile. -/

/-- A per-horizon record: a ticker together with its (possibly undefined) raw
score for that horizon. -/
structure HRecord where
  ticker : String
  score : Option ℚ
deriving DecidableEq, Repr

/-- The ranking population of a horizon: the scores that are defined
(`df_stocks[col].dropna()`). -/
def definedScores (recs : List HRecord) : List ℚ :=
  recs.filterMap (·.score)

/-- pandas `rank(method='min')`: one plus the number of strictly smaller
values in the population. -/
def minRank (pop : List ℚ) (x : ℚ) : ℕ :=
  1 + pop.countP (fun y => decide (y < x))

/-- `(rank(pct=True, method='min') * 99).astype(int)`: the percentile of a
defined score.  `astype(int)` truncates toward zero, which on these positive
values is the floor. -/
def pctOf (pop : List ℚ) (x : ℚ) : ℤ :=
  ⌊(minRank pop x : ℚ) / pop.length * 99⌋

/-- The percentile assigned to one record for one horizon: records with an
undefined score receive no percentile. -/
def assignPercentile (recs : List HRecord) (r : HRecord) : Option ℤ :=
  r.score.map (fun x => pctOf (definedScores recs) x)

/-! ## Spec-side definitions for claim C3

Claim C3 describes `strength` as partitioning the trailing closes into four
*consecutive* ~63-trading-day windows and weighting the per-window returns
0.4/0.2/0.2/0.2.  The following two definitions are written from the spec's
words (not from the source) so the claim can be compared with the code. -/

/-- Written from the spec's words for claim C3: the cumulative percentage
return of the `n`-th most recent of four consecutive 63-trading-day windows
(windows share their boundary close).  A window entirely before the available
history has no data; a window whose available data is a single price point
contributes the 0% placeholder. -/
def window_return (closes : List ℚ) (n : ℕ) : Option ℚ :=
  let L := closes.length
  if L = 0 then none
  else if L ≤ 63 * (n - 1) then none
  else if L = 63 * (n - 1) + 1 then some 0
  else some (closes.getD (L - 1 - 63 * (n - 1)) 0 /
    closes.getD (L - 1 - min (L - 1) (63 * n)) 0 - 1)

/-- Written from the spec's words for claim C3: combine the four consecutive
window returns with fixed weights 0.4/0.2/0.2/0.2 (most recent window
weighted highest), renormalizing the weights over only the windows that have
data. -/
def strength_spec (closes : List ℚ) : Option ℚ :=
  let wrs := [window_return closes 1, window_return closes 2,
              window_return closes 3, window_return closes 4]
  let valid := wrs.filterMap id
  if valid.isEmpty then none
  else
    let weights := ([(4:ℚ)/10, 2/10, 2/10, 2/10]).take valid.length
    let total := weights.foldl (· + ·) 0
    some (((weights.map (· / total)).zip valid).foldl
      (fun acc wp => acc + wp.1 * wp.2) 0)

/-- The trailing cumulative return over the last `days` trading days (clipped
to the available history): last close over first close of the trailing window,
minus one.  This is the quantity `strength` actually combines (amended C3). -/
def trailingRet (closes : List ℚ) (days : ℕ) : ℚ :=
  let available := closes.drop (closes.length - min closes.length (days + 1))
  available.getLastD 0 / available.headD 0 - 1

/-- The concrete series refuting claim C3 as stated: 253 closes, all `1`
except close number 190 (index 189, which is `closes[-64]`) equal to `2`. -/
def cexClosesC3 : List ℚ := (List.replicate 253 (1:ℚ)).set 189 2

/-! ## Merger (claims C4, C5)

`scripts/merge_arcticdb.py` lines 7-83: partition stores are processed in
sorted order; within each partition every symbol's series is validated for
the required `close` and `datetime` columns and written to the destination
(overwriting any earlier series for the same symbol); invalid series are
recorded as failures attributed to their source partition. -/

/-- A stored price series: its column names and its rows. -/
structure DataFrame where
  cols : List String
  rows : List (List ℚ)
deriving DecidableEq, Repr

/-- `{"close", "datetime"}.issubset(df.columns)` (line 49). -/
def hasRequiredCols (df : DataFrame) : Bool :=
  "close" ∈ df.cols && "datetime" ∈ df.cols

/-- One partition-local store: partition name (directory) and its symbols in
listing order. -/
structure Partition where
  pname : String
  series : List (String × DataFrame)
deriving DecidableEq, Repr

/-- The destination store, modelled by its per-symbol read map;
`dest_lib.write(symbol, df)` overwrites the entry for that symbol. -/
def writeSym (store : String → Option DataFrame) (sym : String) (df : DataFrame) :
    String → Option DataFrame :=
  fun s => if s = sym then some df else store s

/-- The mutable state of `merge_arcticdb`: destination store, symbols seen so
far, duplicates, and failures `(source partition, symbol)`. -/
structure MergeState where
  store : String → Option DataFrame
  seen : List String
  dups : List String
  failures : List (String × String)

/-- The fresh destination: empty store, nothing seen. -/
def MergeState.init : MergeState := ⟨fun _ => none, [], [], []⟩

/-- The body of the inner symbol loop (lines 43-59): record duplicates,
validate the required columns, then either write to the destination or record
a failure attributed to the source partition. -/
def processSymbol (pname : String) (st : MergeState) (entry : String × DataFrame) :
    MergeState :=
  let sym := entry.1
  let df := entry.2
  let st1 : MergeState :=
    { st with
      dups := if sym ∈ st.seen then st.dups ++ [sym] else st.dups,
      seen := if sym ∈ st.seen then st.seen else st.seen ++ [sym] }
  if hasRequiredCols df then
    { st1 with store := writeSym st1.store sym df }
  else
    { st1 with failures := st1.failures ++ [(pname, sym)] }

/-- Process a whole partition (the outer loop body, lines 29-59). -/
def processPartition (st : MergeState) (p : Partition) : MergeState :=
  p.series.foldl (processSymbol p.pname) st

/-- `merge_arcticdb`: process the partitions in order into a fresh
destination store. -/
def merge_arcticdb (parts : List Partition) : MergeState :=
  parts.foldl processPartition MergeState.init

/-- All `(partition name, symbol, series)` occurrences of a partition list,
in processing order. -/
def entriesOf (parts : List Partition) : List (String × String × DataFrame) :=
  parts.flatMap (fun p => p.series.map (fun e => (p.pname, e.1, e.2)))

/-- The series that should win for a symbol: the last occurrence, in
processing order, that has the required columns. -/
def lastValidSeries (parts : List Partition) (sym : String) : Option DataFrame :=
  (((entriesOf parts).filter
    (fun e => e.2.1 = sym && hasRequiredCols e.2.2)).getLast?).map (·.2.2)

/-! ## RS calculation run (claim C6)

`scripts/calculate_rs_from_db.py` `main`, lines 140-258: fatal exits
(`sys.exit(1)`) are modelled as `Except.error`; the per-ticker `try/except`
of lines 234-249 records a row with undefined scores on any read error. -/

/-- The unified price store as the RS calculator sees it: the listed symbols
and a read operation that either yields the close series or raises. -/
structure PriceLib where
  symbols : List String
  readSeries : String → Except String (List ℚ)

/-- One output row of the RS calculation: a ticker with its four
(possibly undefined) scores. -/
structure RSRow where
  ticker : String
  rs : Option ℚ
  rs1m : Option ℚ
  rs3m : Option ℚ
  rs6m : Option ℚ
deriving DecidableEq, Repr

/-- The body of the per-ticker loop (lines 234-249): any raised exception is
caught and the ticker is recorded with undefined scores for all horizons;
likewise a series with fewer than 2 closes. -/
def processTicker (refCloses : List ℚ) (t : String) (res : Except String (List ℚ)) :
    RSRow :=
  match res with
  | .error _ => ⟨t, none, none, none, none⟩
  | .ok closes =>
    if closes.length < 2 then ⟨t, none, none, none, none⟩
    else ⟨t, relative_strength closes refCloses,
      short_relative_strength closes refCloses 21,
      short_relative_strength closes refCloses 63,
      short_relative_strength closes refCloses 126⟩

/-- The scoring phase of `main` (lines 140-258): fatal when the reference
ticker is absent, unreadable or has fewer than 20 bars, and when no ticker
row at all was produced; otherwise one row per non-benchmark ticker. -/
def calculate_rs (lib : PriceLib) (referenceTicker : String) :
    Except String (List RSRow) :=
  if referenceTicker ∉ lib.symbols then .error "reference ticker not found"
  else
    match lib.readSeries referenceTicker with
    | .error e => .error e
    | .ok refCloses =>
      if refCloses.length < 20 then .error "not enough reference ticker data"
      else
        let rows := (lib.symbols.filter (fun t => t ≠ referenceTicker)).map
          (fun t => processTicker refCloses t (lib.readSeries t))
        if rows.isEmpty then .error "no RS results calculated" else .ok rows

/-! ## Industry aggregator (claim C8)

`scripts/calculate_rs_from_db.py` lines 275-293: ETF rows are re-labelled
into the synthetic "ETF" industry/sector, rows are grouped by industry, each
group gets the mean percentile per horizon (`fillna(0).round().astype(int)`),
the first member's sector, and a comma-joined ticker list sorted by
descending market capitalization. -/

/-- One row of `df_stocks` as the aggregation stage consumes it. -/
structure StockRow where
  ticker : String
  sector : String
  industry : String
  typ : String
  mcap : Option ℚ
  pRS : Option ℤ
  p1M : Option ℤ
  p3M : Option ℤ
  p6M : Option ℤ
deriving DecidableEq, Repr

/-- Lines 275-276: ETF-typed rows get industry and sector "ETF". -/
def adjustETF (r : StockRow) : StockRow :=
  if r.typ = "ETF" then { r with industry := "ETF", sector := "ETF" } else r

/-- The members of one industry group, in row order (pandas `groupby`
preserves the original order within a group). -/
def groupMembers (rows : List StockRow) (i : String) : List StockRow :=
  rows.filter (fun r => r.industry = i)

/-- The sort key of line 289:
`float(df_stocks.loc[df_stocks["Ticker"] == t, "MCAP"].iloc[0] or 0)` —
the market cap of the first row carrying this ticker.  Here `none` models a
market cap that is float NaN (a left-merge miss in the metadata join), and
NaN survives the `or 0` because NaN is truthy in Python: the key stays NaN.
(A JSON-null cap reaching the expression as Python `None` is turned into 0
by `or 0`; that flavour is not distinguished by this model.) -/
def mcapKey (rows : List StockRow) (t : StockRow) : Option ℚ :=
  (rows.find? (fun r => r.ticker = t.ticker)).bind (·.mcap)

/-- The comparison CPython's sort performs on the decorated keys: float
`x < y`, which is False whenever either operand is NaN. -/
def pyLt (a b : Option ℚ) : Bool :=
  match a, b with
  | some x, some y => decide (x < y)
  | _, _ => false

/-- The binary search of CPython's `binarysort`: the insertion position for
the pivot `x` in the sorted slice `acc[lo..hi)`, probing `acc[mid]` with
`ISLT(x, acc[mid])` at `mid = (lo + hi) / 2`.  Fuel-indexed so it is a
structural recursion; any fuel of at least `hi - lo` yields the real
result (the interval halves every step). -/
def bsPos {α : Type} (lt : α → α → Bool) (acc : List α) (x : α) :
    ℕ → ℕ → ℕ → ℕ
  | 0, lo, _ => lo
  | fuel + 1, lo, hi =>
    if lo < hi then
      let mid := (lo + hi) / 2
      if lt x (acc.getD mid x) then bsPos lt acc x fuel lo mid
      else bsPos lt acc x fuel (mid + 1) hi
    else lo

/-- One step of CPython's `binarysort`: insert `x` into the sorted prefix
at its binary-search position. -/
def binInsert {α : Type} (lt : α → α → Bool) (acc : List α) (x : α) : List α :=
  let pos := bsPos lt acc x (acc.length + 1) 0 acc.length
  acc.take pos ++ x :: acc.drop pos

/-- `count_run`: length of the weakly ascending continuation after `prev`
(extends while `ISLT(next, prev)` is false). -/
def ascRunLen {α : Type} (lt : α → α → Bool) : α → List α → ℕ
  | _, [] => 0
  | prev, b :: t => if lt b prev then 0 else 1 + ascRunLen lt b t

/-- `count_run`: length of the strictly descending continuation after
`prev` (extends while `ISLT(next, prev)` is true). -/
def descRunLen {α : Type} (lt : α → α → Bool) : α → List α → ℕ
  | _, [] => 0
  | prev, b :: t => if lt b prev then 1 + descRunLen lt b t else 0

/-- CPython's `count_run` plus the in-place reversal of a strictly
descending initial run: the run length and the list with its initial run
normalized to ascending. -/
def initialRun {α : Type} (lt : α → α → Bool) (l : List α) : ℕ × List α :=
  match l with
  | [] => (0, [])
  | [a] => (1, [a])
  | a :: b :: t =>
    if lt b a then
      let k := 2 + descRunLen lt b t
      (k, ((a :: b :: t).take k).reverse ++ (a :: b :: t).drop k)
    else (2 + ascRunLen lt b t, a :: b :: t)

/-- CPython's list sort as run for lists of fewer than 64 elements (one
`count_run` normalization, then `binarysort` of the rest).  On totally
ordered keys this equals CPython's result for every length, both being the
unique stable ascending order; with NaN keys the unspecified order of lists
of 64 or more elements may differ from the merging path. -/
def timsortAsc {α : Type} (lt : α → α → Bool) (l : List α) : List α :=
  let nr := initialRun lt l
  (nr.2.drop nr.1).foldl (binInsert lt) (nr.2.take nr.1)

/-- Python's `sorted(xs, key=key, reverse=True)` on possibly-NaN keys:
CPython implements `reverse=True` by reversing the list before and after a
stable ascending sort. -/
def pySortDescBy {α : Type} (key : α → Option ℚ) (l : List α) : List α :=
  (timsortAsc (fun a b => pyLt (key a) (key b)) l.reverse).reverse

/-- Stable descending insertion by key, matching Python's stable
`sorted(xs, key=k, reverse=True)`: a later element is placed after every
already-present element whose key is at least its own. -/
def insertDesc {α β : Type} [LinearOrder β] (key : α → β) (a : α) :
    List α → List α
  | [] => [a]
  | b :: l => if key a ≤ key b then b :: insertDesc key a l else a :: b :: l

/-- Stable descending sort by key (Python `sorted(..., reverse=True)`). -/
def sortDesc {α β : Type} [LinearOrder β] (key : α → β) (l : List α) : List α :=
  l.foldl (fun acc a => insertDesc key a acc) []

/-- A horizon selector for the four percentile columns. -/
def horizonPct : ℕ → StockRow → Option ℤ
  | 0, r => r.pRS
  | 1, r => r.p1M
  | 2, r => r.p3M
  | _, r => r.p6M

/-- The mean-percentile aggregate of one group for one horizon, lines
285-293: pandas `mean` skips undefined percentiles, `fillna(0)` turns an
all-undefined group into 0, `.round().astype(int)` rounds half to even. -/
def industryPct (rows : List StockRow) (i : String) (h : ℕ) : ℤ :=
  let vals := (groupMembers rows i).filterMap (horizonPct h)
  if vals.isEmpty then 0
  else roundHalfEven ((vals.map (fun z => (z : ℚ))).foldl (· + ·) 0 / vals.length)

/-- The group's sector: the first member's value (`"Sector": "first"`). -/
def industrySector (rows : List StockRow) (i : String) : Option String :=
  ((groupMembers rows i).head?).map (·.sector)

/-- The group's comma-joined ticker list of line 289:
`",".join(sorted(x, key=lambda t: float(...MCAP... or 0), reverse=True))`. -/
def industryTickers (rows : List StockRow) (i : String) : String :=
  String.intercalate ","
    ((pySortDescBy (mcapKey rows) (groupMembers rows i)).map (·.ticker))

/-! ## Rating/threshold file (claim C9)

`scripts/calculate_rs_from_db.py` `generate_tradingview_csv`, lines 77-132.
The trading dates come from the external NYSE calendar and are modelled as an
input list of already-formatted `YYYYMMDDT` strings; a CSV row
`date,0,1000,0,rs_value,0` is modelled as the corresponding 6-tuple (the
decimal rendering of the float is outside the model). -/

/-- One emitted row `date,0,1000,0,<rs_value>,0`. -/
def tvRow (d : String) (v : ℚ) : String × ℕ × ℕ × ℕ × ℚ × ℕ :=
  (d, 0, 1000, 0, v, 0)

/-- `rs_map[p]`, lines 106-113: with the defined RS values sorted descending,
the RS threshold for percentile `p` is the value at index
`min(top_n - 1, total - 1)` where `top_n = max(1, round(total*(100-p)/100))`,
rounded to two decimals; an empty population yields `100.0`. -/
def rsThreshold (rsValues : List (Option ℚ)) (p : ℕ) : ℚ :=
  let validRS := sortDesc id (rsValues.filterMap id)
  let total := validRS.length
  if total = 0 then 100
  else
    let topN := (max 1 (roundHalfEven ((total : ℚ) * ((100 : ℚ) - (p : ℚ)) / 100))).toNat
    round2 (validRS.getD (min (topN - 1) (total - 1)) 0)

/-- Lines 116-120: one row per (threshold, trading day) pair, thresholds in
descending order, the same RS value repeated for every date of a threshold. -/
def generate_tradingview_rows (rsValues : List (Option ℚ)) (dates : List String)
    (percentileValues : List ℕ) : List (String × ℕ × ℕ × ℕ × ℚ × ℕ) :=
  (sortDesc id percentileValues).flatMap
    (fun p => dates.map (fun d => tvRow d (rsThreshold rsValues p)))

/-- The default percentile threshold list (line 79). -/
def defaultPercentiles : List ℕ := [98, 89, 69, 49, 29, 9, 1]

/-! ## Partition price builder (claim C10)

`scripts/build_ticker_price.py` `process_batch`, lines 103-151 (the identical
threshold logic is repeated in the individual-retry branches): a symbol is
written to the batch's price dict only when its fetched last close exists and
is at least `PRICE_THRESHOLD`, and summary details are available; every other
symbol of the batch is returned as failed. -/

/-- `PRICE_THRESHOLD = 5.0` (line 23). -/
def PRICE_THRESHOLD : ℚ := 5

/-- What the provider returned for one symbol: the last close of its history
(if any usable history came back) and whether summary details are present. -/
structure TickerQuote where
  lastClose : Option ℚ
  hasDetails : Bool
deriving DecidableEq, Repr

/-- A written price entry, keyed by symbol (the dict `prices`); insertion
follows Python dict semantics (overwrite by key). -/
def upsertPrice (prices : List (String × ℚ)) (sym : String) (v : ℚ) :
    List (String × ℚ) :=
  if prices.any (fun e => e.1 = sym) then
    prices.map (fun e => if e.1 = sym then (sym, v) else e)
  else prices ++ [(sym, v)]

/-- The body of the per-symbol loop of `process_batch` (lines 103-145): skip
symbols with no usable close, skip symbols below `PRICE_THRESHOLD`, skip
symbols without summary details; everything else is recorded with its
price. -/
def priceStep (quote : String → TickerQuote) (acc : List (String × ℚ))
    (s : String) : List (String × ℚ) :=
  match (quote s).lastClose with
  | none => acc
  | some price =>
    if PRICE_THRESHOLD ≤ price then
      if (quote s).hasDetails then upsertPrice acc s price else acc
    else acc

/-- `process_batch` (lines 103-151): the per-symbol loop over the batch, and
the failed-ticker list `[s for s in batch if s not in prices]`. -/
def process_batch (batch : List String) (quote : String → TickerQuote) :
    List (String × ℚ) × List String :=
  let prices := batch.foldl (priceStep quote) []
  let failed := batch.filter (fun s => ¬ prices.any (fun e => e.1 = s))
  (prices, failed)

/-- The partition-level accumulation of `main` (lines 233-262 and the
failed-ticker re-pass): batch results are merged into `all_prices` by dict
update. -/
def build_partition_prices (batches : List (List String))
    (quote : String → TickerQuote) : List (String × ℚ) :=
  batches.foldl
    (fun acc b => (process_batch b quote).1.foldl
      (fun acc2 e => upsertPrice acc2 e.1 e.2) acc)
    []

/-! ## Helper lemmas -/

theorem abs_roundHalfEven_sub_le (q : ℚ) : |(roundHalfEven q : ℚ) - q| ≤ 1/2 := by
  have hfl : (⌊q⌋ : ℚ) ≤ q := Int.floor_le q
  have hfu : q < (⌊q⌋ : ℚ) + 1 := Int.lt_floor_add_one q
  unfold roundHalfEven
  split_ifs with h1 h2 h3
  · simp only [Int.cast_add, Int.cast_one, abs_le]; constructor <;> linarith
  · simp only [Int.cast_add, Int.cast_one, abs_le]; constructor <;> linarith
  · have : q - (⌊q⌋ : ℚ) = 1/2 := le_antisymm (not_lt.mp h2) (not_lt.mp h1)
    simp only [Int.cast_add, Int.cast_one, abs_le]; constructor <;> linarith
  · have : q - (⌊q⌋ : ℚ) = 1/2 := le_antisymm (not_lt.mp h2) (not_lt.mp h1)
    simp only [Int.cast_add, Int.cast_one, abs_le]; constructor <;> linarith

theorem foldl_pctChanges (l : List ℚ) (acc : ℚ) (hne : l ≠ [])
    (hnz : ∀ c ∈ l, c ≠ 0) :
    (pctChanges l).foldl (fun a x => a * (x + 1)) acc =
      acc * (l.getLastD 0 / l.headD 0) := by
  induction l generalizing acc with
  | nil => exact absurd rfl hne
  | cons a t ih =>
    cases t with
    | nil =>
      have ha : a ≠ 0 := hnz a (by simp)
      simp [pctChanges, div_self ha]
    | cons b t' =>
      have ha : a ≠ 0 := hnz a (by simp)
      have hb : b ≠ 0 := hnz b (by simp)
      have step : pctChanges (a :: b :: t') = (b / a - 1) :: pctChanges (b :: t') := by
        simp [pctChanges]
      rw [step, List.foldl_cons,
        ih (acc * (b / a - 1 + 1)) (by simp) (fun c hc => hnz c (List.mem_cons_of_mem a hc))]
      have hlast : (a :: b :: t').getLastD 0 = (b :: t').getLastD 0 := by
        simp [List.getLastD_cons]
      rw [hlast]
      simp only [List.headD_cons]
      field_simp
      ring

theorem pctChanges_length (l : List ℚ) : (pctChanges l).length = l.length - 1 := by
  cases l with
  | nil => simp [pctChanges]
  | cons a t => simp [pctChanges]

theorem quarters_perf_eq_trailing (closes : List ℚ) (n : ℕ) (h2 : 2 ≤ closes.length)
    (hnz : ∀ c ∈ closes, c ≠ 0) (hn : 1 ≤ n) :
    quarters_perf closes n = some (trailingRet closes (n * 63)) := by
  unfold quarters_perf trailingRet
  have hslice : 2 ≤ min closes.length (n * 63 + 1) := by
    have : 63 ≤ n * 63 := Nat.le_mul_of_pos_left 63 hn
    omega
  set available := closes.drop (closes.length - min closes.length (n * 63 + 1)) with havail
  have hlen : available.length = min closes.length (n * 63 + 1) := by
    rw [havail, List.length_drop]; omega
  have hav2 : 2 ≤ available.length := by omega
  have hne : available ≠ [] := by
    intro h; rw [h] at hav2; simp at hav2
  have hnz' : ∀ c ∈ available, c ≠ 0 := fun c hc => hnz c (List.drop_subset _ _ hc)
  have hpcne : ¬ (pctChanges available).isEmpty = true := by
    rw [List.isEmpty_iff_length_eq_zero, pctChanges_length]
    omega
  simp only [if_neg (by omega : ¬ available.length < 2), if_neg hpcne,
    foldl_pctChanges available 1 hne hnz', one_mul]

/-- Claim C1: for every pair of series for which both weighted performance
scores are defined, `relative_strength` returns
`round((1 + stock_score) / (1 + benchmark_score) * 100, 2)` when that ratio
is at most 590 and NaN when it exceeds 590; and it returns NaN whenever
either operand's score is undefined — it is never defaulted to zero or to
the benchmark's value. -/
theorem claim_C1_relative_strength (closes closes_ref : List ℚ) :
    (∀ s b : ℚ, strength closes = some s → strength closes_ref = some b →
      relative_strength closes closes_ref =
        (if (1 + s) / (1 + b) * 100 ≤ 590
         then some (round2 ((1 + s) / (1 + b) * 100)) else none))
    ∧ ((strength closes = none ∨ strength closes_ref = none) →
      relative_strength closes closes_ref = none) := by
  constructor
  · intro s b hs hb
    simp [relative_strength, hs, hb]
  · intro h
    rcases h with h | h
    · simp [relative_strength, h]
    · cases hc : strength closes <;> simp [relative_strength, h, hc]

/-- Witness for claim C1 at a concrete input. -/
theorem claim_C1_relative_strength_witness :
    relative_strength [1, 2] [1, 1] = some 200 := by
  have h := (claim_C1_relative_strength [1, 2] [1, 1]).1 1 0
    (by with_unfolding_all decide) (by with_unfolding_all decide)
  rw [h]
  with_unfolding_all decide

set_option maxRecDepth 1000000 in
/-- Counterexample to claim C3 as stated: on a 253-close series (all closes 1
except `closes[-64] = 2`) the code's `strength` yields `-1/5` while combining
the cumulative returns of four *consecutive* 63-day windows with weights
0.4/0.2/0.2/0.2 (the spec-side `strength_spec`) yields `0`. -/
theorem claim_C3_counterexample :
    strength cexClosesC3 = some (-(1/5)) ∧ strength_spec cexClosesC3 = some 0 ∧
    strength cexClosesC3 ≠ strength_spec cexClosesC3 := by
  with_unfolding_all decide

/-- Claim C3 (amended): for every closes series with at least 2 points (and
nonzero closes), the weighted performance score combines the cumulative
returns of the four *nested trailing* windows of 63, 126, 189 and 252
trading days (each clipped to the available history, ending at the latest
close) with fixed weights 0.4/0.2/0.2/0.2, the shortest (most recent) window
weighted highest; the weights are renormalized over the windows whose return
is defined when fewer than four are (for a series of at least 2 points all
four are defined), and a series whose available data is a single price point
contributes a 0% placeholder return for every window. -/
theorem claim_C3_amended_strength (closes : List ℚ) :
    ((2 ≤ closes.length) → (∀ c ∈ closes, c ≠ 0) →
      strength closes = some ((4/10) * trailingRet closes 63
        + (2/10) * trailingRet closes 126 + (2/10) * trailingRet closes 189
        + (2/10) * trailingRet closes 252))
    ∧ (closes.length = 1 → strength closes = some 0) := by
  constructor
  · intro h2 hnz
    have q1 := quarters_perf_eq_trailing closes 1 h2 hnz (by omega)
    have q2 := quarters_perf_eq_trailing closes 2 h2 hnz (by omega)
    have q3 := quarters_perf_eq_trailing closes 3 h2 hnz (by omega)
    have q4 := quarters_perf_eq_trailing closes 4 h2 hnz (by omega)
    norm_num at q1 q2 q3 q4
    unfold strength
    rw [q1, q2, q3, q4]
    norm_num [List.filterMap_cons, List.foldl_cons, List.take_succ_cons]
  · intro h1
    obtain ⟨c, rfl⟩ := List.length_eq_one.mp h1
    have hq : ∀ n : ℕ, quarters_perf [c] n = some 0 := by
      intro n
      unfold quarters_perf
      simp only [List.length_singleton,
        Nat.min_eq_left (show (1:ℕ) ≤ n * 63 + 1 by omega)]
      norm_num
    unfold strength
    rw [hq 1, hq 2, hq 3, hq 4]
    norm_num [List.filterMap_cons, List.foldl_cons, List.take_succ_cons]

/-- Witness for the amended claim C3 at a concrete input. -/
theorem claim_C3_amended_strength_witness :
    strength [1, 2] = some ((4/10) * trailingRet [1, 2] 63
      + (2/10) * trailingRet [1, 2] 126 + (2/10) * trailingRet [1, 2] 189
      + (2/10) * trailingRet [1, 2] 252) :=
  (claim_C3_amended_strength [1, 2]).1 (by decide) (by with_unfolding_all decide)

/-- Claim C7: for each short horizon of exactly 21, 63 and 126 trading days,
the short-horizon RS equals `round((1 + stock trailing return) /
(1 + benchmark trailing return) * 100, 2)` over exactly that window (the
trailing return compares the last close with the close `days` bars back,
i.e. `closes.iloc[-days]`), is undefined when either series has fewer than
`days + 1` closes or the ratio exceeds the 590 cap, and depends on nothing
but the two series and the window length. -/
theorem claim_C7_short_relative_strength (closes closes_ref : List ℚ) (days : ℕ)
    (_hdays : days = 21 ∨ days = 63 ∨ days = 126) :
    ((days + 1 ≤ closes.length ∧ days + 1 ≤ closes_ref.length) →
      short_relative_strength closes closes_ref days =
        (let stockRet := closes.getD (closes.length - 1) 0 /
           closes.getD (closes.length - days) 0 - 1
         let refRet := closes_ref.getD (closes_ref.length - 1) 0 /
           closes_ref.getD (closes_ref.length - days) 0 - 1
         if (1 + stockRet) / (1 + refRet) * 100 ≤ 590
         then some (round2 ((1 + stockRet) / (1 + refRet) * 100)) else none))
    ∧ ((closes.length < days + 1 ∨ closes_ref.length < days + 1) →
      short_relative_strength closes closes_ref days = none) := by
  constructor
  · intro h
    unfold short_relative_strength
    rw [if_neg (by omega)]
  · intro h
    unfold short_relative_strength
    rw [if_pos h]

/-- Witness for claim C7 at a concrete input (window of 21 days). -/
theorem claim_C7_short_relative_strength_witness :
    short_relative_strength ((List.replicate 22 (1:ℚ)).set 21 2)
      (List.replicate 22 (1:ℚ)) 21 = some 200 := by
  have h := (claim_C7_short_relative_strength ((List.replicate 22 (1:ℚ)).set 21 2)
    (List.replicate 22 (1:ℚ)) 21 (Or.inl rfl)).1
    ⟨by with_unfolding_all decide, by with_unfolding_all decide⟩
  rw [h]
  with_unfolding_all decide

/-- Claim C2: per horizon, the percentile of a record is an integer in 0-99
computed by minimum-rank order statistics over exactly the records whose
score for that horizon is defined: it is monotone non-decreasing in the raw
score, equal scores receive equal percentiles, a record with an undefined
score receives no percentile, and any change to the record list that leaves
the defined-score population unchanged (in particular appending records with
undefined scores) changes no percentile. -/
theorem claim_C2_percentiles (recs : List HRecord) :
    (∀ r ∈ recs, ∀ x : ℚ, r.score = some x → ∀ p : ℤ,
      assignPercentile recs r = some p → 0 ≤ p ∧ p ≤ 99)
    ∧ (∀ r1 r2 : HRecord, ∀ x1 x2 : ℚ, r1.score = some x1 → r2.score = some x2 →
      x1 ≤ x2 → ∀ p1 p2 : ℤ, assignPercentile recs r1 = some p1 →
      assignPercentile recs r2 = some p2 → p1 ≤ p2)
    ∧ (∀ r1 r2 : HRecord, r1.score = r2.score →
      assignPercentile recs r1 = assignPercentile recs r2)
    ∧ (∀ r : HRecord, r.score = none → assignPercentile recs r = none)
    ∧ (∀ recs' : List HRecord, definedScores recs' = definedScores recs →
      ∀ r, assignPercentile recs' r = assignPercentile recs r)
    ∧ (∀ extra : List HRecord, (∀ e ∈ extra, e.score = none) →
      definedScores (recs ++ extra) = definedScores recs) := by
  refine ⟨?_, ?_, ?_, ?_, ?_, ?_⟩
  · intro r hr x hx p hp
    have hxpop : x ∈ definedScores recs := List.mem_filterMap.mpr ⟨r, hr, hx⟩
    have hN : 0 < (definedScores recs).length :=
      List.length_pos.mpr (List.ne_nil_of_mem hxpop)
    have hcN : (definedScores recs).countP (fun y => decide (y < x)) <
        (definedScores recs).length := by
      rcases lt_or_eq_of_le (List.countP_le_length (p := fun y => decide (y < x))
        (l := definedScores recs)) with h | h
      · exact h
      · exfalso
        have hall := List.countP_eq_length.mp h x hxpop
        simp at hall
    have hpval : p = pctOf (definedScores recs) x := by
      rw [assignPercentile, hx] at hp
      simpa using hp.symm
    subst hpval
    unfold pctOf minRank
    constructor
    · apply Int.floor_nonneg.mpr
      positivity
    · have hle : ((1 + (definedScores recs).countP (fun y => decide (y < x)) : ℕ) : ℚ) /
          ((definedScores recs).length : ℚ) * 99 ≤ 99 := by
        rw [div_mul_eq_mul_div, div_le_iff₀ (by exact_mod_cast hN)]
        have hc : ((1 + (definedScores recs).countP (fun y => decide (y < x)) : ℕ) : ℚ) ≤
            ((definedScores recs).length : ℚ) := by
          have h' : 1 + (definedScores recs).countP (fun y => decide (y < x)) ≤
              (definedScores recs).length := by omega
          exact_mod_cast h'
        nlinarith
      calc ⌊((1 + (definedScores recs).countP (fun y => decide (y < x)) : ℕ) : ℚ) /
            ((definedScores recs).length : ℚ) * 99⌋
          ≤ ⌊(99 : ℚ)⌋ := Int.floor_le_floor hle
        _ = 99 := by norm_num
  · intro r1 r2 x1 x2 hx1 hx2 hle p1 p2 hp1 hp2
    have hp1v : p1 = pctOf (definedScores recs) x1 := by
      rw [assignPercentile, hx1] at hp1; simpa using hp1.symm
    have hp2v : p2 = pctOf (definedScores recs) x2 := by
      rw [assignPercentile, hx2] at hp2; simpa using hp2.symm
    subst hp1v; subst hp2v
    unfold pctOf minRank
    apply Int.floor_le_floor
    have hcount : (definedScores recs).countP (fun y => decide (y < x1)) ≤
        (definedScores recs).countP (fun y => decide (y < x2)) := by
      apply List.countP_mono_left
      intro y hy h
      simp only [decide_eq_true_eq] at h ⊢
      exact lt_of_lt_of_le h hle
    rcases Nat.eq_zero_or_pos (definedScores recs).length with h0 | h0
    · rw [h0]
      norm_num
    · have hNpos : (0 : ℚ) < ((definedScores recs).length : ℚ) := by exact_mod_cast h0
      have hc : ((1 + (definedScores recs).countP (fun y => decide (y < x1)) : ℕ) : ℚ) ≤
          ((1 + (definedScores recs).countP (fun y => decide (y < x2)) : ℕ) : ℚ) := by
        exact_mod_cast Nat.add_le_add_left hcount 1
      exact mul_le_mul_of_nonneg_right ((div_le_div_iff_of_pos_right hNpos).mpr hc)
        (by norm_num)
  · intro r1 r2 h
    unfold assignPercentile
    rw [h]
  · intro r h
    simp [assignPercentile, h]
  · intro recs' h r
    unfold assignPercentile
    rw [h]
  · intro extra h
    unfold definedScores
    have hextra : List.filterMap (fun r => r.score) extra = [] :=
      List.filterMap_eq_nil_iff.mpr (fun e he => by simpa using h e he)
    rw [List.filterMap_append, hextra, List.append_nil]

/-- Witness for claim C2 at a concrete input. -/
theorem claim_C2_percentiles_witness :
    assignPercentile [⟨"A", some 1⟩, ⟨"B", some 2⟩, ⟨"C", none⟩] ⟨"C", none⟩ = none ∧
    definedScores ([⟨"A", some 1⟩, ⟨"B", some 2⟩] ++ [⟨"C", none⟩]) =
      definedScores [⟨"A", some 1⟩, ⟨"B", some 2⟩] :=
  ⟨(claim_C2_percentiles [⟨"A", some 1⟩, ⟨"B", some 2⟩, ⟨"C", none⟩]).2.2.2.1
      ⟨"C", none⟩ rfl,
    (claim_C2_percentiles [⟨"A", some 1⟩, ⟨"B", some 2⟩]).2.2.2.2.2 [⟨"C", none⟩]
      (by simp)⟩

/-! ## Merge lemmas -/

theorem foldl_processPartition_eq (parts : List Partition) (st : MergeState) :
    parts.foldl processPartition st =
      (entriesOf parts).foldl (fun st e => processSymbol e.1 st e.2) st := by
  induction parts generalizing st with
  | nil => simp [entriesOf]
  | cons p ps ih =>
    rw [List.foldl_cons, ih]
    unfold entriesOf
    rw [List.flatMap_cons, List.foldl_append, List.foldl_map]
    rfl

theorem processSymbol_store (pname : String) (st : MergeState)
    (entry : String × DataFrame) (s : String) :
    (processSymbol pname st entry).store s =
      if entry.1 = s ∧ hasRequiredCols entry.2 then some entry.2 else st.store s := by
  by_cases hv : hasRequiredCols entry.2
  · by_cases he : s = entry.1
    · subst he
      simp [processSymbol, writeSym, hv]
    · have hne : entry.1 ≠ s := fun h => he h.symm
      simp [processSymbol, writeSym, hv, he, hne]
  · simp [processSymbol, hv]

theorem processSymbol_failures (pname : String) (st : MergeState)
    (entry : String × DataFrame) :
    (processSymbol pname st entry).failures =
      st.failures ++ (if hasRequiredCols entry.2 then [] else [(pname, entry.1)]) := by
  by_cases hv : hasRequiredCols entry.2 <;> simp [processSymbol, hv]

theorem store_after_entries (es : List (String × String × DataFrame))
    (st : MergeState) (sym : String) :
    (es.foldl (fun st e => processSymbol e.1 st e.2) st).store sym =
      Option.or
        (((es.filter (fun e => e.2.1 = sym && hasRequiredCols e.2.2)).getLast?).map
          (fun e => e.2.2))
        (st.store sym) := by
  induction es using List.reverseRecOn with
  | nil => simp
  | append_singleton es e ih =>
    rw [List.foldl_append, List.foldl_cons, List.foldl_nil, processSymbol_store,
      List.filter_append]
    by_cases hP : (e.2.1 = sym && hasRequiredCols e.2.2) = true
    · have hcond : e.2.1 = sym ∧ hasRequiredCols e.2.2 := by
        simpa [Bool.and_eq_true] using hP
      rw [if_pos hcond]
      have : List.filter (fun e => e.2.1 = sym && hasRequiredCols e.2.2) [e] = [e] := by
        simp [List.filter, hP]
      rw [this, List.getLast?_concat]
      simp
    · have hcond : ¬ (e.2.1 = sym ∧ hasRequiredCols e.2.2) := by
        simpa [Bool.and_eq_true] using hP
      rw [if_neg hcond]
      have : List.filter (fun e => e.2.1 = sym && hasRequiredCols e.2.2) [e] = [] := by
        simp only [List.filter, hP]
      rw [this, List.append_nil, ih]

theorem failures_after_entries (es : List (String × String × DataFrame))
    (st : MergeState) :
    (es.foldl (fun st e => processSymbol e.1 st e.2) st).failures =
      st.failures ++
        (es.filter (fun e => !hasRequiredCols e.2.2)).map (fun e => (e.1, e.2.1)) := by
  induction es generalizing st with
  | nil => simp
  | cons e es' ih =>
    rw [List.foldl_cons, ih, processSymbol_failures]
    by_cases hv : hasRequiredCols e.2.2 <;>
      simp [hv, List.filter_cons]

/-- Claim C4: merging the same set of partition stores twice, each time into
a fresh empty destination store, produces identical unified stores — the
same set of symbols and, for each symbol, the same series.  The two runs are
the same pure fold from the same fresh `MergeState.init`; the second
conjunct pins the common value down: each run's store maps every symbol to
the last occurrence with the required columns in processing order, a
function of the partition list alone. -/
theorem claim_C4_merge_deterministic (parts : List Partition) :
    (∀ sym, (merge_arcticdb parts).store sym = (merge_arcticdb parts).store sym)
    ∧ (∀ sym, (merge_arcticdb parts).store sym = lastValidSeries parts sym) := by
  refine ⟨fun _ => rfl, fun sym => ?_⟩
  unfold merge_arcticdb lastValidSeries
  rw [foldl_processPartition_eq, store_after_entries]
  simp [MergeState.init]

/-- Claim C5: after a merge, a symbol that occurs in several partitions holds
the series of the later-processed occurrence that passed validation — last
write wins by processing order, with no comparison of data recency; a series
missing a required column is never written (a symbol all of whose occurrences
are invalid is absent from the destination) and is recorded as a merge
failure attributed to its source partition; and every symbol's final value is
the last valid occurrence for that symbol alone, so failures of one symbol
never disturb the merge of the others. -/
theorem claim_C5_merge_validation (parts : List Partition) :
    (∀ sym, (merge_arcticdb parts).store sym = lastValidSeries parts sym)
    ∧ (∀ pname sym df, (pname, sym, df) ∈ entriesOf parts →
      hasRequiredCols df = false → (pname, sym) ∈ (merge_arcticdb parts).failures)
    ∧ (∀ sym, (∀ e ∈ entriesOf parts, e.2.1 = sym → hasRequiredCols e.2.2 = false) →
      (merge_arcticdb parts).store sym = none) := by
  have hstore : ∀ sym, (merge_arcticdb parts).store sym = lastValidSeries parts sym := by
    intro sym
    unfold merge_arcticdb lastValidSeries
    rw [foldl_processPartition_eq, store_after_entries]
    simp [MergeState.init]
  refine ⟨hstore, ?_, ?_⟩
  · intro pname sym df hmem hbad
    unfold merge_arcticdb
    rw [foldl_processPartition_eq, failures_after_entries]
    simp only [MergeState.init, List.nil_append]
    exact List.mem_map.mpr ⟨(pname, sym, df),
      List.mem_filter.mpr ⟨hmem, by simp [hbad]⟩, rfl⟩
  · intro sym hall
    rw [hstore sym]
    unfold lastValidSeries
    have : (entriesOf parts).filter
        (fun e => e.2.1 = sym && hasRequiredCols e.2.2) = [] := by
      apply List.filter_eq_nil_iff.mpr
      intro e he
      by_cases hsym : e.2.1 = sym
      · simp [hsym, hall e he hsym]
      · simp [hsym]
    rw [this]
    rfl

/-- A series missing the `datetime` column (merge-validation demo). -/
def dfMissing : DataFrame := ⟨["close"], [[1]]⟩

/-- A valid series written by the first demo partition. -/
def dfFirst : DataFrame := ⟨["close", "datetime"], [[1, 1]]⟩

/-- A valid series for the same symbol written by the later-processed demo
partition (the merge never compares the two series' data). -/
def dfSecond : DataFrame := ⟨["close", "datetime"], [[2, 2], [3, 3]]⟩

/-- Two demo partitions: `AAA` is invalid everywhere, `BBB` occurs in both. -/
def mergeDemoParts : List Partition :=
  [⟨"p1", [("AAA", dfMissing), ("BBB", dfFirst)]⟩, ⟨"p2", [("BBB", dfSecond)]⟩]

/-- Witness for claim C5 at a concrete input: the invalid series is recorded
as a failure attributed to its partition and never written, and the
duplicated symbol holds the later-processed series. -/
theorem claim_C5_merge_validation_witness :
    ("p1", "AAA") ∈ (merge_arcticdb mergeDemoParts).failures ∧
    (merge_arcticdb mergeDemoParts).store "AAA" = none ∧
    (merge_arcticdb mergeDemoParts).store "BBB" = some dfSecond := by
  refine ⟨(claim_C5_merge_validation mergeDemoParts).2.1 "p1" "AAA" dfMissing
      (by with_unfolding_all decide) (by with_unfolding_all decide),
    (claim_C5_merge_validation mergeDemoParts).2.2 "AAA"
      (by with_unfolding_all decide), ?_⟩
  rw [(claim_C5_merge_validation mergeDemoParts).1 "BBB"]
  with_unfolding_all decide

theorem processTicker_ticker (refCloses : List ℚ) (t : String)
    (res : Except String (List ℚ)) : (processTicker refCloses t res).ticker = t := by
  cases res <;> simp [processTicker, apply_ite]

theorem calculate_rs_of_ok (lib : PriceLib) (refTicker : String) (refCloses : List ℚ)
    (hmem : refTicker ∈ lib.symbols)
    (hread : lib.readSeries refTicker = .ok refCloses) :
    calculate_rs lib refTicker =
      (if refCloses.length < 20 then .error "not enough reference ticker data"
       else
         let rows := (lib.symbols.filter (fun t => t ≠ refTicker)).map
           (fun t => processTicker refCloses t (lib.readSeries t))
         if rows.isEmpty then .error "no RS results calculated" else .ok rows) := by
  unfold calculate_rs
  rw [if_neg (not_not_intro hmem), hread]

/-- The scoring phase in isolation: it aborts (an `error` result) when the
benchmark is absent from the store or its series has fewer than 20 bars,
and whenever the benchmark is valid and at least one other ticker exists it
produces one row per non-benchmark ticker, recording a ticker whose read
raises with undefined scores for all four horizons while every other ticker
is still processed.  (The full run additionally re-reads Stock-typed
tickers in the IPO-flag step below, outside any try/except.) -/
theorem calculate_rs_failure_semantics (lib : PriceLib) (refTicker : String) :
    (refTicker ∉ lib.symbols → ∃ e, calculate_rs lib refTicker = .error e)
    ∧ (∀ refCloses, refTicker ∈ lib.symbols →
      lib.readSeries refTicker = .ok refCloses →
      refCloses.length < 20 → ∃ e, calculate_rs lib refTicker = .error e)
    ∧ (∀ refCloses, refTicker ∈ lib.symbols →
      lib.readSeries refTicker = .ok refCloses → 20 ≤ refCloses.length →
      (∃ t ∈ lib.symbols, t ≠ refTicker) →
      ∃ rows, calculate_rs lib refTicker = .ok rows ∧
        rows.map (fun r => r.ticker) = lib.symbols.filter (fun t => t ≠ refTicker) ∧
        (∀ t ∈ lib.symbols, t ≠ refTicker → ∀ err, lib.readSeries t = .error err →
          (⟨t, none, none, none, none⟩ : RSRow) ∈ rows)) := by
  refine ⟨?_, ?_, ?_⟩
  · intro h
    exact ⟨"reference ticker not found", by unfold calculate_rs; rw [if_pos h]⟩
  · intro refCloses hmem hread hlt
    refine ⟨"not enough reference ticker data", ?_⟩
    rw [calculate_rs_of_ok lib refTicker refCloses hmem hread, if_pos hlt]
  · intro refCloses hmem hread hlen hex
    obtain ⟨t0, ht0, hne0⟩ := hex
    refine ⟨(lib.symbols.filter (fun t => t ≠ refTicker)).map
      (fun t => processTicker refCloses t (lib.readSeries t)), ?_, ?_, ?_⟩
    · rw [calculate_rs_of_ok lib refTicker refCloses hmem hread, if_neg (by omega)]
      simp only
      rw [if_neg ?hne]
      case hne =>
        rw [List.isEmpty_iff, List.map_eq_nil_iff, List.filter_eq_nil_iff]
        intro hall
        exact absurd (by simpa using hne0) (by simpa using hall t0 ht0)
    · rw [List.map_map]
      have hcongr : ∀ t ∈ lib.symbols.filter (fun t => t ≠ refTicker),
          ((fun r => r.ticker) ∘ fun t => processTicker refCloses t (lib.readSeries t)) t
            = t := by
        intro t _
        exact processTicker_ticker refCloses t (lib.readSeries t)
      rw [List.map_congr_left hcongr]
      simp
    · intro t ht hne err herr
      refine List.mem_map.mpr ⟨t, List.mem_filter.mpr ⟨ht, by simpa using hne⟩, ?_⟩
      rw [herr]
      rfl

/-- A demo store for claim C6: valid benchmark, one healthy ticker, one
ticker whose read raises. -/
def rsDemoLib : PriceLib :=
  ⟨["SPY", "GOOD", "BAD"],
    fun s =>
      if s = "SPY" then .ok (List.replicate 20 (1:ℚ))
      else if s = "GOOD" then .ok [1, 2]
      else .error "read failure"⟩

/-- The IPO-flag expression of lines 271-273 for one row:
`"Yes" if row["Type"] == "Stock" and len(lib.read(row["Ticker"]).data) < 20
else "No"`.  Python's `and` short-circuits, so the store is re-read only for
Stock-typed rows — and that read is *not* inside any try/except, so a read
exception propagates. -/
def ipoFlag (lib : PriceLib) (typeOf : String → String) (t : String) :
    Except String String :=
  if typeOf t = "Stock" then
    match lib.readSeries t with
    | .error e => .error e
    | .ok closes => .ok (if closes.length < 20 then "Yes" else "No")
  else .ok "No"

/-- `df_stocks.apply(..., axis=1)` of line 271 over the scored rows, in row
order: the first raised exception aborts the whole run. -/
def applyIPO (lib : PriceLib) (typeOf : String → String) :
    List RSRow → Except String (List (RSRow × String))
  | [] => .ok []
  | r :: rest =>
    match ipoFlag lib typeOf r.ticker with
    | .error e => .error e
    | .ok flag =>
      match applyIPO lib typeOf rest with
      | .error e => .error e
      | .ok tail => .ok ((r, flag) :: tail)

/-- The run through the IPO-flag step (lines 140-273): the scoring phase
followed by the unprotected per-row IPO flagging, where `typeOf` is the
metadata Type column. -/
def calculate_rs_with_ipo (lib : PriceLib) (typeOf : String → String)
    (referenceTicker : String) : Except String (List (RSRow × String)) :=
  match calculate_rs lib referenceTicker with
  | .error e => .error e
  | .ok rows => applyIPO lib typeOf rows

/-- Metadata typing every demo ticker as a Stock. -/
def stockTypes : String → String := fun _ => "Stock"

/-- Claim C6, evaluated at the failing input: with a healthy 20-bar
benchmark, the scoring loop catches ticker BAD's read error and records it
with undefined scores for all horizons while GOOD is still processed — but
the run through the IPO-flag step re-reads BAD outside any try/except and
aborts fatally on the same per-ticker read error, before any ranking output
is emitted.  This contradicts the claim's "in no per-ticker circumstance";
the claim matches the spec's stated propagation policy and the catch-all
pattern of the scoring loop itself, so the uncaught re-read is a code bug. -/
theorem claim_C6_ipo_read_fatal :
    calculate_rs rsDemoLib "SPY" =
      .ok [⟨"GOOD", some 200, none, none, none⟩, ⟨"BAD", none, none, none, none⟩] ∧
    calculate_rs_with_ipo rsDemoLib stockTypes "SPY" = .error "read failure" := by
  constructor
  · with_unfolding_all rfl
  · with_unfolding_all rfl

/-! ## Sorting lemmas for the aggregator -/

theorem insertDesc_perm {α β : Type} [LinearOrder β] (key : α → β) (a : α)
    (l : List α) : List.Perm (insertDesc key a l) (a :: l) := by
  induction l with
  | nil => simp [insertDesc]
  | cons b t ih =>
    unfold insertDesc
    by_cases h : key a ≤ key b
    · rw [if_pos h]
      exact (ih.cons b).trans (List.Perm.swap a b t)
    · rw [if_neg h]

theorem sortDesc_foldl_perm {α β : Type} [LinearOrder β] (key : α → β)
    (l acc : List α) :
    List.Perm (l.foldl (fun acc a => insertDesc key a acc) acc) (acc ++ l) := by
  induction l generalizing acc with
  | nil => simp
  | cons a t ih =>
    rw [List.foldl_cons]
    exact (ih (insertDesc key a acc)).trans
      ((((insertDesc_perm key a acc).append_right t)).trans List.perm_middle.symm)

theorem sortDesc_perm {α β : Type} [LinearOrder β] (key : α → β) (l : List α) :
    List.Perm (sortDesc key l) l := by
  simpa using sortDesc_foldl_perm key l []

theorem insertDesc_pairwise {α β : Type} [LinearOrder β] (key : α → β) (a : α)
    (l : List α) (h : l.Pairwise (fun x y => key y ≤ key x)) :
    (insertDesc key a l).Pairwise (fun x y => key y ≤ key x) := by
  induction l with
  | nil => simp [insertDesc]
  | cons b t ih =>
    rcases List.pairwise_cons.mp h with ⟨hb, ht⟩
    unfold insertDesc
    by_cases hk : key a ≤ key b
    · rw [if_pos hk]
      refine List.pairwise_cons.mpr ⟨?_, ih ht⟩
      intro y hy
      rcases List.mem_cons.mp ((insertDesc_perm key a t).mem_iff.mp hy) with hya | hyt
      · exact hya ▸ hk
      · exact hb y hyt
    · rw [if_neg hk]
      have hba : key b < key a := not_le.mp hk
      refine List.pairwise_cons.mpr ⟨?_, h⟩
      intro y hy
      rcases List.mem_cons.mp hy with hyb | hyt
      · exact hyb ▸ le_of_lt hba
      · exact le_trans (hb y hyt) (le_of_lt hba)

theorem sortDesc_pairwise {α β : Type} [LinearOrder β] (key : α → β) (l : List α) :
    (sortDesc key l).Pairwise (fun x y => key y ≤ key x) := by
  have haux : ∀ acc, acc.Pairwise (fun x y => key y ≤ key x) →
      (l.foldl (fun acc a => insertDesc key a acc) acc).Pairwise
        (fun x y => key y ≤ key x) := by
    induction l with
    | nil => intro acc hacc; exact hacc
    | cons a t ih =>
      intro acc hacc
      rw [List.foldl_cons]
      exact ih _ (insertDesc_pairwise key a acc hacc)
  exact haux [] List.Pairwise.nil

/-- The aggregation stage's input: the stock rows after the ETF
re-labelling of lines 275-276. -/
def industryInput (rows : List StockRow) : List StockRow := rows.map adjustETF

/-! ## Correctness of the CPython sort model -/

theorem getD_eq_getElem_of_lt {α : Type} (l : List α) (i : ℕ) (d : α)
    (h : i < l.length) : l.getD i d = l[i] := by
  simp [List.getD_eq_getElem?_getD, List.getElem?_eq_getElem h]

theorem getD_mem_of_lt {α : Type} (l : List α) (i : ℕ) (d : α)
    (h : i < l.length) : l.getD i d ∈ l := by
  rw [getD_eq_getElem_of_lt l i d h]
  exact List.getElem_mem h

theorem binInsert_perm {α : Type} (lt : α → α → Bool) (acc : List α) (x : α) :
    List.Perm (binInsert lt acc x) (x :: acc) := by
  unfold binInsert
  have h1 : List.Perm
      (acc.take (bsPos lt acc x (acc.length + 1) 0 acc.length) ++
        x :: acc.drop (bsPos lt acc x (acc.length + 1) 0 acc.length))
      (x :: (acc.take (bsPos lt acc x (acc.length + 1) 0 acc.length) ++
        acc.drop (bsPos lt acc x (acc.length + 1) 0 acc.length))) :=
    List.perm_middle
  rw [List.take_append_drop] at h1
  exact h1

theorem foldl_binInsert_perm {α : Type} (lt : α → α → Bool) :
    ∀ (items acc : List α),
    List.Perm (items.foldl (binInsert lt) acc) (acc ++ items) := by
  intro items
  induction items with
  | nil => intro acc; simp
  | cons x t ih =>
    intro acc
    rw [List.foldl_cons]
    exact (ih (binInsert lt acc x)).trans
      (((binInsert_perm lt acc x).append_right t).trans List.perm_middle.symm)

theorem initialRun_snd_perm {α : Type} (lt : α → α → Bool) (l : List α) :
    List.Perm (initialRun lt l).2 l := by
  match l with
  | [] => exact List.Perm.refl _
  | [a] => exact List.Perm.refl _
  | a :: b :: t =>
    simp only [initialRun]
    by_cases h : lt b a
    · rw [if_pos h]
      refine List.Perm.trans
        (((a :: b :: t).take (2 + descRunLen lt b t)).reverse_perm.append_right _) ?_
      rw [List.take_append_drop]
    · rw [if_neg h]

theorem timsortAsc_perm {α : Type} (lt : α → α → Bool) (l : List α) :
    List.Perm (timsortAsc lt l) l := by
  unfold timsortAsc
  refine (foldl_binInsert_perm lt _ _).trans ?_
  rw [List.take_append_drop]
  exact initialRun_snd_perm lt l

theorem pySortDescBy_perm {α : Type} (key : α → Option ℚ) (l : List α) :
    List.Perm (pySortDescBy key l) l := by
  unfold pySortDescBy
  exact ((timsortAsc _ l.reverse).reverse_perm).trans
    ((timsortAsc_perm _ l.reverse).trans l.reverse_perm)

theorem sorted_getD_mono {α : Type} (kv : α → ℚ) (acc : List α)
    (hsort : acc.Pairwise (fun u v => kv u ≤ kv v)) (d : α) (i j : ℕ)
    (hij : i ≤ j) (hj : j < acc.length) :
    kv (acc.getD i d) ≤ kv (acc.getD j d) := by
  rcases Nat.lt_or_ge i j with h | h
  · rw [getD_eq_getElem_of_lt acc i d (by omega), getD_eq_getElem_of_lt acc j d hj]
    exact List.pairwise_iff_getElem.mp hsort i j (by omega) hj h
  · have heq : i = j := by omega
    subst heq
    exact le_refl _

theorem bsPos_invariant {α : Type} (lt : α → α → Bool) (kv : α → ℚ)
    (acc : List α) (x : α)
    (hcmp : ∀ i, i < acc.length → lt x (acc.getD i x) =
      decide (kv x < kv (acc.getD i x)))
    (hsort : acc.Pairwise (fun u v => kv u ≤ kv v)) :
    ∀ (fuel lo hi : ℕ), lo ≤ hi → hi ≤ acc.length → hi - lo ≤ fuel →
    (∀ j, j < lo → kv (acc.getD j x) ≤ kv x) →
    (∀ j, hi ≤ j → j < acc.length → kv x < kv (acc.getD j x)) →
    bsPos lt acc x fuel lo hi ≤ acc.length ∧
    (∀ j, j < bsPos lt acc x fuel lo hi → kv (acc.getD j x) ≤ kv x) ∧
    (∀ j, bsPos lt acc x fuel lo hi ≤ j → j < acc.length →
      kv x < kv (acc.getD j x)) := by
  intro fuel
  induction fuel with
  | zero =>
    intro lo hi hle hhi hfuel hlow hhigh
    have heq : lo = hi := by omega
    subst heq
    simp only [bsPos]
    exact ⟨by omega, hlow, fun j hj1 hj2 => hhigh j hj1 hj2⟩
  | succ fuel ih =>
    intro lo hi hle hhi hfuel hlow hhigh
    by_cases hlh : lo < hi
    · have hmlo : lo ≤ (lo + hi) / 2 := by omega
      have hmhi : (lo + hi) / 2 < hi := by omega
      have hmlen : (lo + hi) / 2 < acc.length := by omega
      have hunfold : bsPos lt acc x (fuel + 1) lo hi =
          (if lt x (acc.getD ((lo + hi) / 2) x) = true
           then bsPos lt acc x fuel lo ((lo + hi) / 2)
           else bsPos lt acc x fuel ((lo + hi) / 2 + 1) hi) := by
        simp only [bsPos, if_pos hlh]
      by_cases hc : kv x < kv (acc.getD ((lo + hi) / 2) x)
      · rw [hunfold, hcmp _ hmlen, if_pos (decide_eq_true hc)]
        refine ih lo ((lo + hi) / 2) hmlo (by omega) (by omega) hlow ?_
        intro j hj1 hj2
        exact lt_of_lt_of_le hc
          (sorted_getD_mono kv acc hsort x ((lo + hi) / 2) j hj1 hj2)
      · rw [hunfold, hcmp _ hmlen,
          if_neg (fun h => hc (of_decide_eq_true h))]
        refine ih ((lo + hi) / 2 + 1) hi (by omega) hhi (by omega) ?_ hhigh
        intro j hj
        rcases Nat.lt_or_ge j lo with hjlo | hjlo
        · exact hlow j hjlo
        · exact le_trans
            (sorted_getD_mono kv acc hsort x j ((lo + hi) / 2) (by omega) hmlen)
            (not_lt.mp hc)
    · have heq : lo = hi := by omega
      subst heq
      simp only [bsPos, if_neg hlh]
      exact ⟨by omega, hlow, fun j hj1 hj2 => hhigh j hj1 hj2⟩

theorem binInsert_sorted {α : Type} (lt : α → α → Bool) (kv : α → ℚ)
    (acc : List α) (x : α)
    (hcmp : ∀ i, i < acc.length → lt x (acc.getD i x) =
      decide (kv x < kv (acc.getD i x)))
    (hsort : acc.Pairwise (fun u v => kv u ≤ kv v)) :
    (binInsert lt acc x).Pairwise (fun u v => kv u ≤ kv v) := by
  obtain ⟨hple, hbefore, hafter⟩ :=
    bsPos_invariant lt kv acc x hcmp hsort (acc.length + 1) 0 acc.length
      (by omega) (le_refl _) (by omega)
      (fun j hj => absurd hj (Nat.not_lt_zero j))
      (fun j hj1 hj2 => absurd (lt_of_le_of_lt hj1 hj2) (lt_irrefl _))
  set pos := bsPos lt acc x (acc.length + 1) 0 acc.length with hposdef
  show (acc.take pos ++ x :: acc.drop pos).Pairwise (fun u v => kv u ≤ kv v)
  apply List.pairwise_append.mpr
  refine ⟨List.Pairwise.sublist (List.take_sublist pos acc) hsort, ?_, ?_⟩
  · apply List.pairwise_cons.mpr
    constructor
    · intro y hy
      obtain ⟨j, hj, rfl⟩ := List.mem_iff_getElem.mp hy
      have hplen : pos + j < acc.length := by
        rw [List.length_drop] at hj
        omega
      rw [List.getElem_drop]
      have h2 := hafter (pos + j) (by omega) hplen
      rw [getD_eq_getElem_of_lt acc (pos + j) x hplen] at h2
      exact le_of_lt h2
    · exact List.Pairwise.sublist (List.drop_sublist pos acc) hsort
  · intro a ha b hb
    obtain ⟨i, hi, rfl⟩ := List.mem_iff_getElem.mp ha
    have hilen : i < acc.length := by
      rw [List.length_take] at hi
      omega
    have hipos : i < pos := by
      rw [List.length_take] at hi
      omega
    have hai : kv ((acc.take pos)[i]) ≤ kv x := by
      rw [List.getElem_take]
      have h1 := hbefore i hipos
      rwa [getD_eq_getElem_of_lt acc i x hilen] at h1
    rcases List.mem_cons.mp hb with rfl | hbd
    · exact hai
    · obtain ⟨j, hj, rfl⟩ := List.mem_iff_getElem.mp hbd
      have hplen : pos + j < acc.length := by
        rw [List.length_drop] at hj
        omega
      rw [List.getElem_drop]
      have h2 := hafter (pos + j) (by omega) hplen
      rw [getD_eq_getElem_of_lt acc (pos + j) x hplen] at h2
      exact le_trans hai (le_of_lt h2)

theorem foldl_binInsert_sorted {α : Type} (lt : α → α → Bool) (kv : α → ℚ)
    (l₀ : List α)
    (hag : ∀ a ∈ l₀, ∀ b ∈ l₀, lt a b = decide (kv a < kv b)) :
    ∀ (items acc : List α), (∀ y ∈ acc, y ∈ l₀) → (∀ y ∈ items, y ∈ l₀) →
    acc.Pairwise (fun u v => kv u ≤ kv v) →
    (items.foldl (binInsert lt) acc).Pairwise (fun u v => kv u ≤ kv v) := by
  intro items
  induction items with
  | nil => intro acc _ _ hs; exact hs
  | cons x t ih =>
    intro acc hacc hitems hs
    rw [List.foldl_cons]
    have hx : x ∈ l₀ := hitems x (List.mem_cons_self x t)
    have hcmp : ∀ i, i < acc.length → lt x (acc.getD i x) =
        decide (kv x < kv (acc.getD i x)) := by
      intro i hi
      exact hag x hx _ (hacc _ (getD_mem_of_lt acc i x hi))
    refine ih (binInsert lt acc x) ?_
      (fun y hy => hitems y (List.mem_cons_of_mem x hy))
      (binInsert_sorted lt kv acc x hcmp hs)
    intro y hy
    rcases List.mem_cons.mp ((binInsert_perm lt acc x).mem_iff.mp hy) with rfl | hyacc
    · exact hx
    · exact hacc y hyacc

theorem descRunLen_le {α : Type} (lt : α → α → Bool) :
    ∀ (t : List α) (prev : α), descRunLen lt prev t ≤ t.length := by
  intro t
  induction t with
  | nil => intro prev; simp [descRunLen]
  | cons b t' ih =>
    intro prev
    simp only [descRunLen, List.length_cons]
    by_cases h : lt b prev = true
    · rw [if_pos h]
      have := ih b
      omega
    · rw [if_neg h]
      omega

theorem ascRunLen_chain {α : Type} (lt : α → α → Bool) (kv : α → ℚ)
    (l₀ : List α) (hag : ∀ a ∈ l₀, ∀ b ∈ l₀, lt a b = decide (kv a < kv b)) :
    ∀ (t : List α) (prev : α), prev ∈ l₀ → (∀ y ∈ t, y ∈ l₀) →
    List.Chain' (fun u v => kv u ≤ kv v)
      (prev :: t.take (ascRunLen lt prev t)) := by
  intro t
  induction t with
  | nil => intro prev _ _; simp
  | cons c t' ih =>
    intro prev hprev hsub
    have hc : c ∈ l₀ := hsub c (List.mem_cons_self c t')
    by_cases h : lt c prev = true
    · simp only [ascRunLen, if_pos h, List.take_zero]
      simp
    · simp only [ascRunLen, if_neg h]
      have htake : (c :: t').take (1 + ascRunLen lt c t') =
          c :: t'.take (ascRunLen lt c t') := by
        rw [Nat.add_comm]
        simp [List.take_succ_cons]
      rw [htake, List.chain'_cons]
      constructor
      · rw [hag c hc prev hprev] at h
        exact not_lt.mp (by simpa using h)
      · exact ih c hc (fun y hy => hsub y (List.mem_cons_of_mem c hy))

theorem descRunLen_chain {α : Type} (lt : α → α → Bool) (kv : α → ℚ)
    (l₀ : List α) (hag : ∀ a ∈ l₀, ∀ b ∈ l₀, lt a b = decide (kv a < kv b)) :
    ∀ (t : List α) (prev : α), prev ∈ l₀ → (∀ y ∈ t, y ∈ l₀) →
    List.Chain' (fun u v => kv v < kv u)
      (prev :: t.take (descRunLen lt prev t)) := by
  intro t
  induction t with
  | nil => intro prev _ _; simp
  | cons c t' ih =>
    intro prev hprev hsub
    have hc : c ∈ l₀ := hsub c (List.mem_cons_self c t')
    by_cases h : lt c prev = true
    · simp only [descRunLen, if_pos h]
      have htake : (c :: t').take (1 + descRunLen lt c t') =
          c :: t'.take (descRunLen lt c t') := by
        rw [Nat.add_comm]
        simp [List.take_succ_cons]
      rw [htake, List.chain'_cons]
      constructor
      · rw [hag c hc prev hprev] at h
        exact of_decide_eq_true h
      · exact ih c hc (fun y hy => hsub y (List.mem_cons_of_mem c hy))
    · simp only [descRunLen, if_neg h, List.take_zero]
      simp

theorem initialRun_take_sorted {α : Type} (lt : α → α → Bool) (kv : α → ℚ)
    (l : List α) (hag : ∀ a ∈ l, ∀ b ∈ l, lt a b = decide (kv a < kv b)) :
    ((initialRun lt l).2.take (initialRun lt l).1).Pairwise
      (fun u v => kv u ≤ kv v) := by
  haveI hTle : IsTrans α (fun u v => kv u ≤ kv v) :=
    ⟨fun a b c h1 h2 => le_trans h1 h2⟩
  haveI hTgt : IsTrans α (fun u v => kv v < kv u) :=
    ⟨fun a b c h1 h2 => lt_trans h2 h1⟩
  match l, hag with
  | [], hag => simp [initialRun]
  | [a], hag => simp [initialRun]
  | a :: b :: t, hag =>
    have ha : a ∈ a :: b :: t := by simp
    have hb : b ∈ a :: b :: t := by simp
    simp only [initialRun]
    by_cases h : lt b a = true
    · rw [if_pos h]
      have hklen : 2 + descRunLen lt b t ≤ (a :: b :: t).length := by
        have := descRunLen_le lt t b
        simp only [List.length_cons]
        omega
      have hlen : (((a :: b :: t).take (2 + descRunLen lt b t)).reverse).length =
          2 + descRunLen lt b t := by
        rw [List.length_reverse, List.length_take]
        omega
      rw [List.take_left' hlen, List.pairwise_reverse]
      have htake : (a :: b :: t).take (2 + descRunLen lt b t) =
          a :: b :: t.take (descRunLen lt b t) := by
        rw [Nat.add_comm]
        simp [List.take_succ_cons]
      have hchain : List.Chain' (fun u v => kv v < kv u)
          ((a :: b :: t).take (2 + descRunLen lt b t)) := by
        rw [htake, List.chain'_cons]
        constructor
        · rw [hag b hb a ha] at h
          exact of_decide_eq_true h
        · exact descRunLen_chain lt kv (a :: b :: t) hag t b hb
            (fun y hy => List.mem_cons_of_mem a (List.mem_cons_of_mem b hy))
      exact (List.chain'_iff_pairwise.mp hchain).imp (fun hlt => le_of_lt hlt)
    · rw [if_neg h]
      have htake : (a :: b :: t).take (2 + ascRunLen lt b t) =
          a :: b :: t.take (ascRunLen lt b t) := by
        rw [Nat.add_comm]
        simp [List.take_succ_cons]
      rw [htake]
      apply List.chain'_iff_pairwise.mp
      rw [List.chain'_cons]
      constructor
      · rw [hag b hb a ha] at h
        exact not_lt.mp (by simpa using h)
      · exact ascRunLen_chain lt kv (a :: b :: t) hag t b hb
          (fun y hy => List.mem_cons_of_mem a (List.mem_cons_of_mem b hy))

theorem timsortAsc_sorted {α : Type} (lt : α → α → Bool) (kv : α → ℚ)
    (l : List α) (hag : ∀ a ∈ l, ∀ b ∈ l, lt a b = decide (kv a < kv b)) :
    (timsortAsc lt l).Pairwise (fun u v => kv u ≤ kv v) := by
  unfold timsortAsc
  have hperm := initialRun_snd_perm lt l
  have hsub2 : ∀ y ∈ (initialRun lt l).2, y ∈ l := fun y hy => hperm.mem_iff.mp hy
  refine foldl_binInsert_sorted lt kv l hag _ _ ?_ ?_ ?_
  · intro y hy
    exact hsub2 y (List.take_subset _ _ hy)
  · intro y hy
    exact hsub2 y (List.drop_subset _ _ hy)
  · exact initialRun_take_sorted lt kv l hag

theorem pySortDescBy_sorted_of_defined {α : Type} (key : α → Option ℚ)
    (l : List α) (hdef : ∀ y ∈ l, (key y).isSome) :
    (pySortDescBy key l).Pairwise
      (fun u v => (key v).getD 0 ≤ (key u).getD 0) := by
  have hag : ∀ a ∈ l.reverse, ∀ b ∈ l.reverse,
      (fun a b => pyLt (key a) (key b)) a b =
        decide ((key a).getD 0 < (key b).getD 0) := by
    intro a ha b hb
    obtain ⟨x, hx⟩ := Option.isSome_iff_exists.mp (hdef a (List.mem_reverse.mp ha))
    obtain ⟨y, hy⟩ := Option.isSome_iff_exists.mp (hdef b (List.mem_reverse.mp hb))
    show pyLt (key a) (key b) = decide ((key a).getD 0 < (key b).getD 0)
    rw [hx, hy]
    simp [pyLt]
  have hs := timsortAsc_sorted (fun a b => pyLt (key a) (key b))
    (fun y => (key y).getD 0) l.reverse hag
  unfold pySortDescBy
  rw [List.pairwise_reverse]
  exact hs

/-- "Descending by market capitalization" wherever both caps are defined
(pairs involving a NaN cap are left unconstrained — the most generous
reading of the ordering claim). -/
def capDescBool (a b : Option ℚ) : Bool :=
  match a, b with
  | some x, some y => decide (y ≤ x)
  | _, _ => true

/-- Rows refuting the unconditional ordering of claim C8: one group whose
middle member lost its market cap (NaN after the metadata left-merge). -/
def capDemoRows : List StockRow :=
  [⟨"A", "Technology", "Semis", "Stock", some 3, some 1, none, none, none⟩,
   ⟨"B", "Technology", "Semis", "Stock", none, some 2, none, none, none⟩,
   ⟨"C", "Technology", "Semis", "Stock", some 5, some 3, none, none, none⟩]

/-- Counterexample to claim C8 as stated: with member caps 3, NaN, 5 the
emitted ticker list is "A,B,C" — the defined caps appear in ascending order
3 before 5, so the list is not ordered by descending market capitalization
even on the pairs where both caps are defined.  (`float(nan or 0)` is NaN
because NaN is truthy, and CPython's comparison-based sort does not order
NaN keys.) -/
theorem claim_C8_capsort_counterexample :
    industryTickers (industryInput capDemoRows) "Semis" = "A,B,C" ∧
    ¬ (pySortDescBy (mcapKey (industryInput capDemoRows))
        (groupMembers (industryInput capDemoRows) "Semis")).Pairwise
        (fun a b => capDescBool (mcapKey (industryInput capDemoRows) a)
          (mcapKey (industryInput capDemoRows) b) = true) := by
  constructor
  · with_unfolding_all decide
  · with_unfolding_all decide

/-- Claim C8 (amended): for every industry group of the aggregator — run on
the rows after ETF re-labelling — the per-horizon percentile is within
integer rounding of the unweighted mean of the member stocks' defined
percentiles, the group's sector is the first member's sector, the ticker
membership is the comma-join of exactly the group's members (a permutation)
which is ordered by descending market capitalization whenever every
member's market cap is defined (a member whose cap is missing/NaN voids the
ordering guarantee), and every ETF-typed ticker lands in the synthetic
"ETF" group and never in a non-"ETF" group. -/
theorem claim_C8_industry_aggregation (rows : List StockRow) (i : String) :
    (∀ m, (groupMembers (industryInput rows) i).head? = some m →
      industrySector (industryInput rows) i = some m.sector)
    ∧ (∀ hz : ℕ,
      ((groupMembers (industryInput rows) i).filterMap (horizonPct hz)) ≠ [] →
      |(industryPct (industryInput rows) i hz : ℚ) -
        (((groupMembers (industryInput rows) i).filterMap (horizonPct hz)).map
          (fun z => (z : ℚ))).foldl (· + ·) 0 /
        ((groupMembers (industryInput rows) i).filterMap (horizonPct hz)).length|
        ≤ 1/2)
    ∧ (industryTickers (industryInput rows) i = String.intercalate ","
        ((pySortDescBy (mcapKey (industryInput rows))
          (groupMembers (industryInput rows) i)).map (fun r => r.ticker))
      ∧ List.Perm (pySortDescBy (mcapKey (industryInput rows))
          (groupMembers (industryInput rows) i))
          (groupMembers (industryInput rows) i)
      ∧ ((∀ m ∈ groupMembers (industryInput rows) i,
            (mcapKey (industryInput rows) m).isSome) →
          (pySortDescBy (mcapKey (industryInput rows))
            (groupMembers (industryInput rows) i)).Pairwise
            (fun a b => (mcapKey (industryInput rows) b).getD 0 ≤
              (mcapKey (industryInput rows) a).getD 0)))
    ∧ (∀ r ∈ rows, r.typ = "ETF" →
      adjustETF r ∈ groupMembers (industryInput rows) "ETF")
    ∧ (i ≠ "ETF" → ∀ m ∈ groupMembers (industryInput rows) i, m.typ ≠ "ETF") := by
  refine ⟨?_, ?_, ⟨rfl, pySortDescBy_perm _ _,
    fun hdefs => pySortDescBy_sorted_of_defined _ _ hdefs⟩, ?_, ?_⟩
  · intro m hm
    rw [industrySector, hm]
    rfl
  · intro hz hvals
    have hnotempty :
        ¬ ((groupMembers (industryInput rows) i).filterMap (horizonPct hz)).isEmpty
          = true := by
      rw [List.isEmpty_iff]
      exact hvals
    rw [industryPct, if_neg hnotempty]
    exact abs_roundHalfEven_sub_le _
  · intro r hr hETF
    refine List.mem_filter.mpr ⟨List.mem_map.mpr ⟨r, hr, rfl⟩, ?_⟩
    simp [adjustETF, hETF]
  · intro hne m hm
    rcases List.mem_filter.mp hm with ⟨hmadj, hind⟩
    rcases List.mem_map.mp hmadj with ⟨r, _hr, rfl⟩
    intro hETF
    by_cases hr' : r.typ = "ETF"
    · have hieq : (adjustETF r).industry = "ETF" := by simp [adjustETF, hr']
      rw [hieq] at hind
      exact hne (of_decide_eq_true hind).symm
    · refine hr' ?_
      have hty : (adjustETF r).typ = r.typ := by simp [adjustETF, hr']
      rw [hty] at hETF
      exact hETF

/-- Demo rows for claim C8: two stocks in one industry (both with defined
caps) and one ETF. -/
def aggDemoRows : List StockRow :=
  [⟨"AAA", "Technology", "Semis", "Stock", some 100, some 90, some 80, some 70, some 60⟩,
   ⟨"BBB", "Technology", "Semis", "Stock", some 200, some 50, none, some 10, some 20⟩,
   ⟨"EEE", "X", "Y", "ETF", some 300, some 10, some 10, some 10, some 10⟩]

/-- Witness for the amended claim C8 at a concrete input, including the
ordering guarantee for a group whose caps are all defined. -/
theorem claim_C8_industry_aggregation_witness :
    industrySector (industryInput aggDemoRows) "Semis" = some "Technology" ∧
    adjustETF ⟨"EEE", "X", "Y", "ETF", some 300, some 10, some 10, some 10, some 10⟩
      ∈ groupMembers (industryInput aggDemoRows) "ETF" ∧
    (∀ m ∈ groupMembers (industryInput aggDemoRows) "Semis", m.typ ≠ "ETF") ∧
    (pySortDescBy (mcapKey (industryInput aggDemoRows))
      (groupMembers (industryInput aggDemoRows) "Semis")).Pairwise
      (fun a b => (mcapKey (industryInput aggDemoRows) b).getD 0 ≤
        (mcapKey (industryInput aggDemoRows) a).getD 0) :=
  ⟨(claim_C8_industry_aggregation aggDemoRows "Semis").1
      ⟨"AAA", "Technology", "Semis", "Stock", some 100, some 90, some 80, some 70,
        some 60⟩ (by with_unfolding_all decide),
   (claim_C8_industry_aggregation aggDemoRows "ETF").2.2.2.1
      ⟨"EEE", "X", "Y", "ETF", some 300, some 10, some 10, some 10, some 10⟩
      (by with_unfolding_all decide) rfl,
   (claim_C8_industry_aggregation aggDemoRows "Semis").2.2.2.2
      (by with_unfolding_all decide),
   (claim_C8_industry_aggregation aggDemoRows "Semis").2.2.1.2.2
      (by with_unfolding_all decide)⟩

/-- Claim C9: with the default threshold list 98/89/69/49/29/9/1 and the last
5 trading days, the emitted rating file consists of exactly one row per
(threshold, trading day) pair — 35 rows — each of the literal shape
`date,0,1000,0,<rs_value>,0`, where the RS value is the percentile-band
boundary `rsThreshold` and the same value repeats identically for all 5 days
of a threshold. -/
theorem claim_C9_tradingview_rows (rsValues : List (Option ℚ)) (dates : List String)
    (h5 : dates.length = 5) :
    (generate_tradingview_rows rsValues dates defaultPercentiles).length = 35
    ∧ generate_tradingview_rows rsValues dates defaultPercentiles =
      defaultPercentiles.flatMap
        (fun p => dates.map (fun d => (d, 0, 1000, 0, rsThreshold rsValues p, 0)))
    ∧ (∀ p ∈ defaultPercentiles, ∀ d ∈ dates,
      (d, 0, 1000, 0, rsThreshold rsValues p, 0) ∈
        generate_tradingview_rows rsValues dates defaultPercentiles) := by
  have hsort : sortDesc id defaultPercentiles = defaultPercentiles := by decide
  have heq : generate_tradingview_rows rsValues dates defaultPercentiles =
      defaultPercentiles.flatMap
        (fun p => dates.map (fun d => (d, 0, 1000, 0, rsThreshold rsValues p, 0))) := by
    unfold generate_tradingview_rows tvRow
    rw [hsort]
  refine ⟨?_, heq, ?_⟩
  · rw [heq]
    simp [defaultPercentiles, h5]
  · intro p hp d hd
    rw [heq]
    exact List.mem_flatMap.mpr ⟨p, hp, List.mem_map.mpr ⟨d, hd, rfl⟩⟩

/-- Witness for claim C9 at a concrete input. -/
theorem claim_C9_tradingview_rows_witness :
    (generate_tradingview_rows [some 100, none, some 200]
      ["20240101T", "20240102T", "20240103T", "20240104T", "20240105T"]
      defaultPercentiles).length = 35 ∧
    ("20240101T", 0, 1000, 0, rsThreshold [some 100, none, some 200] 98, 0) ∈
      generate_tradingview_rows [some 100, none, some 200]
        ["20240101T", "20240102T", "20240103T", "20240104T", "20240105T"]
        defaultPercentiles :=
  ⟨(claim_C9_tradingview_rows [some 100, none, some 200]
      ["20240101T", "20240102T", "20240103T", "20240104T", "20240105T"]
      (by decide)).1,
   (claim_C9_tradingview_rows [some 100, none, some 200]
      ["20240101T", "20240102T", "20240103T", "20240104T", "20240105T"]
      (by decide)).2.2 98 (by decide) "20240101T" (by decide)⟩

/-! ## Lemmas for the price threshold (claim C10) -/

theorem mem_upsertPrice (acc : List (String × ℚ)) (s : String) (v : ℚ)
    (e : String × ℚ) (h : e ∈ upsertPrice acc s v) : e = (s, v) ∨ e ∈ acc := by
  unfold upsertPrice at h
  split at h
  · rcases List.mem_map.mp h with ⟨x, hx, hfx⟩
    by_cases hxs : x.1 = s
    · rw [if_pos hxs] at hfx
      exact Or.inl hfx.symm
    · rw [if_neg hxs] at hfx
      exact Or.inr (hfx ▸ hx)
  · rcases List.mem_append.mp h with hacc | he
    · exact Or.inr hacc
    · exact Or.inl (List.mem_singleton.mp he)

theorem mem_priceStep_fold (quote : String → TickerQuote) (batch : List String)
    (acc : List (String × ℚ)) (e : String × ℚ)
    (h : e ∈ batch.foldl (priceStep quote) acc) :
    e ∈ acc ∨ ((quote e.1).lastClose = some e.2 ∧ PRICE_THRESHOLD ≤ e.2) := by
  induction batch generalizing acc with
  | nil => exact Or.inl h
  | cons s t ih =>
    rw [List.foldl_cons] at h
    rcases ih (priceStep quote acc s) h with hstep | hgood
    · unfold priceStep at hstep
      split at hstep
      · exact Or.inl hstep
      · rename_i price hprice
        split at hstep
        · split at hstep
          · rcases mem_upsertPrice acc s price e hstep with he | hacc
            · refine Or.inr ?_
              rw [he]
              exact ⟨hprice, by assumption⟩
            · exact Or.inl hacc
          · exact Or.inl hstep
        · exact Or.inl hstep
    · exact Or.inr hgood

/-- Claim C10: every entry `process_batch` returns has a last close of at
least `PRICE_THRESHOLD = 5.0`; a batch symbol whose fetched last close is
below the threshold is omitted from the returned prices and lands in the
returned failed-ticker list; and no entry of the accumulated partition
output is ever below the threshold. -/
theorem claim_C10_price_threshold (quote : String → TickerQuote) :
    (∀ batch : List String, ∀ e ∈ (process_batch batch quote).1,
      PRICE_THRESHOLD ≤ e.2)
    ∧ (∀ batch : List String, ∀ s ∈ batch, ∀ p : ℚ,
      (quote s).lastClose = some p → p < PRICE_THRESHOLD →
      (∀ e ∈ (process_batch batch quote).1, e.1 ≠ s) ∧
      s ∈ (process_batch batch quote).2)
    ∧ (∀ batches : List (List String), ∀ e ∈ build_partition_prices batches quote,
      PRICE_THRESHOLD ≤ e.2) := by
  have hkey : ∀ batch : List String, ∀ e ∈ (process_batch batch quote).1,
      (quote e.1).lastClose = some e.2 ∧ PRICE_THRESHOLD ≤ e.2 := by
    intro batch e he
    rcases mem_priceStep_fold quote batch [] e he with h0 | hgood
    · exact absurd h0 (List.not_mem_nil e)
    · exact hgood
  have hnoentry : ∀ batch : List String, ∀ s ∈ batch, ∀ p : ℚ,
      (quote s).lastClose = some p → p < PRICE_THRESHOLD →
      ∀ e ∈ (process_batch batch quote).1, e.1 ≠ s := by
    intro batch s _hs p hp hlt e he hes
    rcases hkey batch e he with ⟨hclose, hth⟩
    rw [hes, hp] at hclose
    have : p = e.2 := by injection hclose
    rw [this] at hlt
    exact absurd hth (not_le.mpr hlt)
  refine ⟨fun batch e he => (hkey batch e he).2, ?_, ?_⟩
  · intro batch s hs p hp hlt
    refine ⟨hnoentry batch s hs p hp hlt, ?_⟩
    unfold process_batch
    refine List.mem_filter.mpr ⟨hs, decide_eq_true ?_⟩
    intro hany
    rcases List.any_eq_true.mp hany with ⟨e, he, hes⟩
    exact hnoentry batch s hs p hp hlt e he (of_decide_eq_true hes)
  · intro batches
    have haux : ∀ (bs : List (List String)) (acc : List (String × ℚ)),
        (∀ e ∈ acc, PRICE_THRESHOLD ≤ e.2) →
        ∀ e ∈ bs.foldl (fun acc b => (process_batch b quote).1.foldl
          (fun acc2 x => upsertPrice acc2 x.1 x.2) acc) acc, PRICE_THRESHOLD ≤ e.2 := by
      intro bs
      induction bs with
      | nil => intro acc hacc e he; exact hacc e he
      | cons b bs' ih =>
        intro acc hacc e he
        rw [List.foldl_cons] at he
        refine ih _ ?_ e he
        have hinner : ∀ (xs : List (String × ℚ)) (acc2 : List (String × ℚ)),
            (∀ x ∈ xs, PRICE_THRESHOLD ≤ x.2) →
            (∀ x ∈ acc2, PRICE_THRESHOLD ≤ x.2) →
            ∀ x ∈ xs.foldl (fun acc2 x => upsertPrice acc2 x.1 x.2) acc2,
              PRICE_THRESHOLD ≤ x.2 := by
          intro xs
          induction xs with
          | nil => intro acc2 _ hacc2 x hx; exact hacc2 x hx
          | cons y ys ihy =>
            intro acc2 hxs hacc2 x hx
            rw [List.foldl_cons] at hx
            refine ihy _ (fun z hz => hxs z (List.mem_cons_of_mem y hz)) ?_ x hx
            intro z hz
            rcases mem_upsertPrice acc2 y.1 y.2 z hz with hzy | hzacc
            · rw [hzy]
              exact hxs y (List.mem_cons_self y ys)
            · exact hacc2 z hzacc
        exact hinner (process_batch b quote).1 acc
          (fun x hx => (hkey b x hx).2) hacc
    intro e he
    exact haux batches [] (by intro x hx; exact absurd hx (List.not_mem_nil x)) e he

/-- Demo quotes for claim C10: one symbol above, one below the threshold. -/
def quoteDemo : String → TickerQuote := fun s =>
  if s = "CHEAP" then ⟨some 3, true⟩
  else if s = "GOOD" then ⟨some 10, true⟩
  else ⟨none, false⟩

/-- Witness for claim C10 at a concrete input. -/
theorem claim_C10_price_threshold_witness :
    (∀ e ∈ (process_batch ["GOOD", "CHEAP"] quoteDemo).1, e.1 ≠ "CHEAP") ∧
    "CHEAP" ∈ (process_batch ["GOOD", "CHEAP"] quoteDemo).2 :=
  (claim_C10_price_threshold quoteDemo).2.1 ["GOOD", "CHEAP"] "CHEAP"
    (by with_unfolding_all decide) 3 (by with_unfolding_all rfl)
    (by with_unfolding_all decide)
